import Mathlib

/-!
# Course catalog BST — verification development

Shallow embedding of the course-catalog core of `ProjectTwo.cpp`:
a `Course` record, an unbalanced binary search tree keyed by
`courseNumber`, insertion (`insertIntoBST`), exact-key lookup
(`searchBST`), in-order traversal (the record-emission order of
`displayCoursesInOrder`, here `traverseInOrder`), the line splitter
(`splitString`, modelling the `std::getline`-on-delimiter loop), and the
line-by-line loader (`loadCoursesFromFile`, taking the already-read
lines of the file; file opening is collaborator I/O outside the core).

C++ `std::string` comparison `<` / `==` is lexicographic on the
character sequence, which is exactly `String.lt` / equality in Lean.
-/

/-- The `Course` record of `ProjectTwo.cpp`: course number (the key),
title, and the ordered prerequisite list. -/
structure Course where
  courseNumber : String
  courseTitle : String
  prerequisites : List String
deriving DecidableEq, Repr

/-- C++ `std::string::operator<` is `lexicographical_compare` on the
character sequences; this is its executable embedding on `List Char`.
`charListLt_iff_lt` below proves it equivalent to Lean's lexicographic
list order, so the comparison used by the code is exactly lexicographic
string ordering. -/
def charListLt : List Char → List Char → Bool
  | [], [] => false
  | [], _ :: _ => true
  | _ :: _, [] => false
  | a :: as, b :: bs =>
    if a < b then true
    else if b < a then false
    else charListLt as bs

/-- C++ `std::string` `operator<`, lexicographic on the characters. -/
def strLt (a b : String) : Bool :=
  charListLt a.data b.data

/-- The BST of `TreeNode*` pointers: a null pointer is `nil`, a node owns
its `Course` and its two child subtrees. -/
inductive TreeNode where
  | nil : TreeNode
  | node (course : Course) (left right : TreeNode) : TreeNode
deriving DecidableEq, Repr

/-- `insertIntoBST` (ProjectTwo.cpp lines 25-38): a null root becomes a
fresh leaf node; otherwise a record with key strictly below the node's
key goes left, anything else (including an equal key) goes right. -/
def insertIntoBST : TreeNode → Course → TreeNode
  | TreeNode.nil, course => TreeNode.node course TreeNode.nil TreeNode.nil
  | TreeNode.node rc l r, course =>
    if strLt course.courseNumber rc.courseNumber then
      TreeNode.node rc (insertIntoBST l course) r
    else
      TreeNode.node rc l (insertIntoBST r course)

/-- `searchBST` (ProjectTwo.cpp lines 41-55): descend comparing the key;
an exact match returns that node's record, a missing child returns the
null pointer, modelled as `none`. -/
def searchBST : TreeNode → String → Option Course
  | TreeNode.nil, _ => none
  | TreeNode.node rc l r, courseNumber =>
    if rc.courseNumber = courseNumber then
      some rc
    else if strLt courseNumber rc.courseNumber then
      searchBST l courseNumber
    else
      searchBST r courseNumber

/-- The record-emission order of `displayCoursesInOrder` (ProjectTwo.cpp
lines 109-125): left subtree, node, right subtree. -/
def traverseInOrder : TreeNode → List Course
  | TreeNode.nil => []
  | TreeNode.node c l r => traverseInOrder l ++ c :: traverseInOrder r

/-- The token loop of `splitString`: `std::getline(stream, token, delim)`
extracts characters up to the delimiter or end of input; it fails (ending
the loop) exactly when it extracts no characters, i.e. when the remaining
input is empty.  `buf` holds the reversed characters of the token being
read.  A delimiter followed by nothing ends the loop after pushing the
current token, so a trailing empty field is never produced. -/
def splitFields (delimiter : Char) (buf : List Char) : List Char → List (List Char)
  | [] => [buf.reverse]
  | c :: cs =>
    if c = delimiter then
      if cs.isEmpty then [buf.reverse]
      else buf.reverse :: splitFields delimiter [] cs
    else
      splitFields delimiter (c :: buf) cs

/-- `splitString` (ProjectTwo.cpp lines 58-68): on empty input the first
`getline` fails at once and no token is produced; otherwise run the
token loop. -/
def splitString (str : String) (delimiter : Char) : List String :=
  if str.data.isEmpty then []
  else (splitFields delimiter [] str.data).map String.mk

/-- The per-line body of the load loop (ProjectTwo.cpp lines 84-98) as the
spec's Record Parser: fewer than 2 comma-separated fields is a rejection;
otherwise field 0 is the course number, field 1 the title, and the
remaining fields, in order, the prerequisites. -/
def parseLine (line : String) : Option Course :=
  match splitString line ',' with
  | t0 :: t1 :: rest =>
    some { courseNumber := t0, courseTitle := t1, prerequisites := rest }
  | _ => none

/-- One iteration of the load loop (ProjectTwo.cpp lines 84-101): a
malformed line leaves the tree as it was (`continue`), a parsed record is
inserted. -/
def loadLine (root : TreeNode) (line : String) : TreeNode :=
  match parseLine line with
  | some course => insertIntoBST root course
  | none => root

/-- `loadCoursesFromFile` (ProjectTwo.cpp lines 71-105) after the file has
been read into its lines (file opening is collaborator I/O): start from
the null root and fold the load loop over the lines. -/
def loadCoursesFromFile (lines : List String) : TreeNode :=
  lines.foldl loadLine TreeNode.nil

/-- A sequence of insertions into an initially empty tree (the way every
tree of the application is built). -/
def insertList (cs : List Course) : TreeNode :=
  cs.foldl insertIntoBST TreeNode.nil

/-- The `dataLoaded` update of `mainMenu` case 1 (ProjectTwo.cpp lines
186-193): `dataLoaded` becomes true only when the returned root pointer is
non-null; a null root prints "Failed to load course data" and leaves the
flag as it was. -/
def dataLoadedAfter (dataLoaded : Bool) (root : TreeNode) : Bool :=
  match root with
  | TreeNode.nil => dataLoaded
  | TreeNode.node _ _ _ => true

/-- Modelled from the spec: the Record Parser "splits the line on a fixed
delimiter (comma) into an ordered sequence of fields, preserving empty
fields as empty strings".  This is the splitter the spec describes, with
every field between, before, after and at the ends of delimiters kept;
it is compared against the code's `splitString`. -/
def specSplitFields (delimiter : Char) : List Char → List (List Char)
  | [] => [[]]
  | c :: cs =>
    if c = delimiter then [] :: specSplitFields delimiter cs
    else
      match specSplitFields delimiter cs with
      | t :: ts => (c :: t) :: ts
      | [] => [[c]]

/-- Modelled from the spec: the field sequence of a line under the spec's
all-fields-preserved splitting. -/
def specSplit (str : String) (delimiter : Char) : List String :=
  (specSplitFields delimiter str.data).map String.mk

/-- Helper for relating `splitFields` to `specSplitFields`: prepend `p` to
the first field of a field list. -/
def consHead (p : List Char) : List (List Char) → List (List Char)
  | [] => [p]
  | t :: ts => (p ++ t) :: ts

/-- The characters strictly below a node in the in-order sense: predicate
holding at every record of a tree. -/
def ForallTree (p : Course → Prop) : TreeNode → Prop
  | TreeNode.nil => True
  | TreeNode.node c l r => p c ∧ ForallTree p l ∧ ForallTree p r

/-- The binary-search-tree invariant of the spec: left subtree strictly
below the node's key, right subtree greater than or equal (the duplicate
tie-break), recursively. -/
def BST : TreeNode → Prop
  | TreeNode.nil => True
  | TreeNode.node c l r =>
    ForallTree (fun x => x.courseNumber < c.courseNumber) l ∧
      ForallTree (fun x => c.courseNumber ≤ x.courseNumber) r ∧
      BST l ∧ BST r

/-- `charListLt` decides the lexicographic order on character lists. -/
theorem charListLt_iff_lt : ∀ as bs : List Char, charListLt as bs = true ↔ as < bs := by
  intro as
  induction as with
  | nil =>
    intro bs
    cases bs with
    | nil =>
      simp only [charListLt, Bool.false_eq_true, false_iff]
      intro h
      cases h
    | cons b bs =>
      simp only [charListLt, true_iff]
      exact List.nil_lt_cons b bs
  | cons a as ih =>
    intro bs
    cases bs with
    | nil =>
      simp only [charListLt, Bool.false_eq_true, false_iff]
      intro h
      cases h
    | cons b bs =>
      by_cases hab : a < b
      · simp only [charListLt, hab, if_true, true_iff]
        exact List.Lex.rel hab
      · by_cases hba : b < a
        · simp only [charListLt, hab, hba, if_true, if_false, Bool.false_eq_true, false_iff]
          intro h
          cases h with
          | cons h' => exact lt_irrefl a hba
          | rel h' => exact hab h'
        · have heq : a = b := le_antisymm (le_of_not_lt hba) (le_of_not_lt hab)
          subst heq
          simp only [charListLt, lt_irrefl, if_false]
          rw [ih bs]
          constructor
          · exact fun h => List.Lex.cons h
          · intro h
            cases h with
            | cons h' => exact h'
            | rel h' => exact absurd h' (lt_irrefl a)

/-- The code's string comparison is Lean's lexicographic `<` on `String`. -/
theorem strLt_iff_lt (a b : String) : strLt a b = true ↔ a < b := by
  rw [String.lt_iff_toList_lt]
  exact charListLt_iff_lt a.data b.data

/-- Failing the code's string comparison is the reverse `≤`. -/
theorem strLt_false_iff_le (a b : String) : strLt a b = false ↔ b ≤ a := by
  rw [← Bool.not_eq_true, not_iff_comm, not_le, strLt_iff_lt]

/-- Insertion preserves any property that holds at every node and at the
inserted record. -/
theorem forallTree_insertIntoBST (p : Course → Prop) (c : Course) :
    ∀ t : TreeNode, ForallTree p t → p c → ForallTree p (insertIntoBST t c) := by
  intro t
  induction t with
  | nil =>
    intro _ hc
    simp only [insertIntoBST, ForallTree]
    exact ⟨hc, trivial, trivial⟩
  | node rc l r ihl ihr =>
    intro ht hc
    simp only [ForallTree] at ht
    by_cases h : strLt c.courseNumber rc.courseNumber = true
    · simp only [insertIntoBST, h, if_true, ForallTree]
      exact ⟨ht.1, ihl ht.2.1 hc, ht.2.2⟩
    · simp only [insertIntoBST, h, if_false, ForallTree]
      exact ⟨ht.1, ht.2.1, ihr ht.2.2 hc⟩

/-- `insertIntoBST` preserves the BST invariant. -/
theorem bst_insertIntoBST (c : Course) :
    ∀ t : TreeNode, BST t → BST (insertIntoBST t c) := by
  intro t
  induction t with
  | nil =>
    intro _
    simp only [insertIntoBST, BST, ForallTree]
    exact ⟨trivial, trivial, trivial, trivial⟩
  | node rc l r ihl ihr =>
    intro ht
    simp only [BST] at ht
    by_cases h : strLt c.courseNumber rc.courseNumber = true
    · simp only [insertIntoBST, h, if_true, BST]
      exact ⟨forallTree_insertIntoBST _ c l ht.1 ((strLt_iff_lt _ _).mp h),
        ht.2.1, ihl ht.2.2.1, ht.2.2.2⟩
    · have hle : rc.courseNumber ≤ c.courseNumber :=
        (strLt_false_iff_le _ _).mp (Bool.not_eq_true _ ▸ h)
      simp only [insertIntoBST, h, if_false, BST]
      exact ⟨ht.1, forallTree_insertIntoBST _ c r ht.2.1 hle,
        ht.2.2.1, ihr ht.2.2.2⟩

/-- Every tree built by a sequence of insertions from the empty tree
satisfies the BST invariant. -/
theorem bst_insertList (cs : List Course) : BST (insertList cs) := by
  have h : ∀ cs : List Course, ∀ t : TreeNode, BST t →
      BST (cs.foldl insertIntoBST t) := by
    intro cs
    induction cs with
    | nil => intro t ht; exact ht
    | cons c cs ih =>
      intro t ht
      exact ih (insertIntoBST t c) (bst_insertIntoBST c t ht)
  exact h cs TreeNode.nil trivial

/-- A property holding at every node holds at every record of the
in-order traversal. -/
theorem mem_of_forallTree {p : Course → Prop} :
    ∀ t : TreeNode, ForallTree p t → ∀ c ∈ traverseInOrder t, p c := by
  intro t
  induction t with
  | nil =>
    intro _ c hc
    simp only [traverseInOrder, List.not_mem_nil] at hc
  | node rc l r ihl ihr =>
    intro ht c hc
    simp only [ForallTree] at ht
    simp only [traverseInOrder, List.mem_append, List.mem_cons] at hc
    rcases hc with hc | hc | hc
    · exact ihl ht.2.1 c hc
    · exact hc ▸ ht.1
    · exact ihr ht.2.2 c hc

/-- The in-order traversal of a BST lists course numbers in
non-decreasing order. -/
theorem sorted_inorder_of_bst :
    ∀ t : TreeNode, BST t →
      List.Sorted (fun a b => a ≤ b) ((traverseInOrder t).map Course.courseNumber) := by
  intro t
  induction t with
  | nil =>
    intro _
    simp [traverseInOrder]
  | node rc l r ihl ihr =>
    intro ht
    simp only [BST] at ht
    simp only [traverseInOrder, List.map_append, List.map_cons]
    show List.Pairwise _ _
    rw [List.pairwise_append]
    refine ⟨ihl ht.2.2.1, ?_, ?_⟩
    · rw [List.pairwise_cons]
      refine ⟨?_, ihr ht.2.2.2⟩
      intro b hb
      rcases List.mem_map.mp hb with ⟨y, hy, rfl⟩
      exact mem_of_forallTree r ht.2.1 y hy
    · intro a ha b hb
      rcases List.mem_map.mp ha with ⟨x, hx, rfl⟩
      have hxlt : x.courseNumber < rc.courseNumber :=
        mem_of_forallTree l ht.1 x hx
      rcases List.mem_cons.mp hb with rfl | hb
      · exact le_of_lt hxlt
      · rcases List.mem_map.mp hb with ⟨y, hy, rfl⟩
        exact le_trans (le_of_lt hxlt) (mem_of_forallTree r ht.2.1 y hy)

/-- Searching for a key held by no record of the tree falls off a missing
child and returns `none`. -/
theorem searchBST_eq_none_of_not_mem :
    ∀ (t : TreeNode) (k : String),
      (∀ c ∈ traverseInOrder t, c.courseNumber ≠ k) → searchBST t k = none := by
  intro t
  induction t with
  | nil => intro k _; rfl
  | node rc l r ihl ihr =>
    intro k hk
    have hrc : rc.courseNumber ≠ k := by
      refine hk rc ?_
      simp [traverseInOrder]
    simp only [searchBST, hrc, if_false]
    split
    · refine ihl k ?_
      intro c hc
      refine hk c ?_
      simp only [traverseInOrder, List.mem_append, List.mem_cons]
      exact Or.inl hc
    · refine ihr k ?_
      intro c hc
      refine hk c ?_
      simp only [traverseInOrder, List.mem_append, List.mem_cons]
      exact Or.inr (Or.inr hc)

/-- A record returned by `searchBST` is a record of the tree and carries
the searched key. -/
theorem searchBST_some_mem :
    ∀ (t : TreeNode) (k : String) (c : Course),
      searchBST t k = some c → c ∈ traverseInOrder t ∧ c.courseNumber = k := by
  intro t
  induction t with
  | nil => intro k c h; exact absurd h (by simp [searchBST])
  | node rc l r ihl ihr =>
    intro k c h
    simp only [searchBST] at h
    by_cases heq : rc.courseNumber = k
    · rw [if_pos heq] at h
      have hc : rc = c := by injection h
      subst hc
      refine ⟨?_, heq⟩
      simp [traverseInOrder]
    · rw [if_neg heq] at h
      simp only [traverseInOrder, List.mem_append, List.mem_cons]
      split at h
      · rcases ihl k c h with ⟨hm, hkey⟩
        exact ⟨Or.inl hm, hkey⟩
      · rcases ihr k c h with ⟨hm, hkey⟩
        exact ⟨Or.inr (Or.inr hm), hkey⟩

/-- On a BST, searching the key of any record of the tree succeeds and
returns a record carrying that key (the first match on the descent, which
may shadow a later duplicate). -/
theorem searchBST_found :
    ∀ t : TreeNode, BST t → ∀ c ∈ traverseInOrder t,
      (searchBST t c.courseNumber).map Course.courseNumber = some c.courseNumber := by
  intro t
  induction t with
  | nil =>
    intro _ c hc
    simp only [traverseInOrder, List.not_mem_nil] at hc
  | node rc l r ihl ihr =>
    intro ht c hc
    simp only [BST] at ht
    simp only [traverseInOrder, List.mem_append, List.mem_cons] at hc
    by_cases heq : rc.courseNumber = c.courseNumber
    · simp only [searchBST, heq, if_pos]
      simp [heq]
    · rcases hc with hc | hc | hc
      · have hlt : c.courseNumber < rc.courseNumber :=
          mem_of_forallTree l ht.1 c hc
        have hb : strLt c.courseNumber rc.courseNumber = true :=
          (strLt_iff_lt _ _).mpr hlt
        simp only [searchBST, heq, if_false, hb, if_true]
        exact ihl ht.2.2.1 c hc
      · exact absurd (hc ▸ rfl) heq
      · have hge : rc.courseNumber ≤ c.courseNumber :=
          mem_of_forallTree r ht.2.1 c hc
        have hlt : rc.courseNumber < c.courseNumber :=
          lt_of_le_of_ne hge heq
        have hb : strLt c.courseNumber rc.courseNumber = false := by
          rw [strLt_false_iff_le]
          exact le_of_lt hlt
        simp only [searchBST, heq, if_false, hb, Bool.false_eq_true]
        exact ihr ht.2.2.2 c hc

/-- In-order traversal after an insertion is a permutation of the
inserted record followed by the old traversal: exactly one node is added
and no existing record is removed, replaced or modified. -/
theorem perm_traverseInOrder_insert :
    ∀ (t : TreeNode) (c : Course),
      List.Perm (traverseInOrder (insertIntoBST t c)) (c :: traverseInOrder t) := by
  intro t
  induction t with
  | nil =>
    intro c
    simp [insertIntoBST, traverseInOrder]
  | node rc l r ihl ihr =>
    intro c
    by_cases h : strLt c.courseNumber rc.courseNumber = true
    · simp only [insertIntoBST, h, if_true, traverseInOrder]
      exact List.Perm.append_right (rc :: traverseInOrder r) (ihl c)
    · simp only [insertIntoBST, h, if_false, traverseInOrder]
      have step1 : List.Perm (traverseInOrder l ++ rc :: traverseInOrder (insertIntoBST r c))
          (traverseInOrder l ++ rc :: c :: traverseInOrder r) :=
        List.Perm.append_left (traverseInOrder l) (List.Perm.cons rc (ihr c))
      have step2 : List.Perm (traverseInOrder l ++ rc :: c :: traverseInOrder r)
          (traverseInOrder l ++ c :: rc :: traverseInOrder r) :=
        List.Perm.append_left (traverseInOrder l)
          (List.Perm.swap c rc (traverseInOrder r))
      have step3 : List.Perm (traverseInOrder l ++ c :: rc :: traverseInOrder r)
          (c :: (traverseInOrder l ++ rc :: traverseInOrder r)) :=
        List.perm_middle
      exact (step1.trans step2).trans step3

/-- Folding insertions over a list permutes the traversal by the inserted
records. -/
theorem perm_traverseInOrder_foldl :
    ∀ (cs : List Course) (t : TreeNode),
      List.Perm (traverseInOrder (cs.foldl insertIntoBST t))
        (cs ++ traverseInOrder t) := by
  intro cs
  induction cs with
  | nil => intro t; exact List.Perm.refl _
  | cons c cs ih =>
    intro t
    have h1 : List.Perm (traverseInOrder ((c :: cs).foldl insertIntoBST t))
        (cs ++ traverseInOrder (insertIntoBST t c)) := ih (insertIntoBST t c)
    have h2 : List.Perm (cs ++ traverseInOrder (insertIntoBST t c))
        (cs ++ c :: traverseInOrder t) :=
      List.Perm.append_left cs (perm_traverseInOrder_insert t c)
    have h3 : List.Perm (cs ++ c :: traverseInOrder t)
        (c :: (cs ++ traverseInOrder t)) := List.perm_middle
    exact (h1.trans h2).trans h3

/-- The records of a tree built from a record list are exactly that list,
as a multiset. -/
theorem perm_traverseInOrder_insertList (cs : List Course) :
    List.Perm (traverseInOrder (insertList cs)) cs := by
  have h := perm_traverseInOrder_foldl cs TreeNode.nil
  simpa [traverseInOrder] using h

/-- The spec's splitter always yields at least one field. -/
theorem specSplitFields_ne_nil (d : Char) :
    ∀ cs : List Char, specSplitFields d cs ≠ [] := by
  intro cs
  cases cs with
  | nil => simp [specSplitFields]
  | cons c cs =>
    simp only [specSplitFields]
    split
    · simp
    · split <;> simp

/-- Prepending nothing to the first field changes nothing. -/
theorem consHead_nil {xs : List (List Char)} (h : xs ≠ []) : consHead [] xs = xs := by
  cases xs with
  | nil => exact absurd rfl h
  | cons t ts => simp [consHead]

/-- Unfolding equation of the token loop on a remaining character. -/
theorem splitFields_cons (d : Char) (buf : List Char) (c : Char) (cs : List Char) :
    splitFields d buf (c :: cs) =
      if c = d then
        if cs.isEmpty then [buf.reverse]
        else buf.reverse :: splitFields d [] cs
      else splitFields d (c :: buf) cs := rfl

/-- Unfolding equation of the spec's splitter on a character. -/
theorem specSplitFields_cons (d : Char) (c : Char) (cs : List Char) :
    specSplitFields d (c :: cs) =
      if c = d then [] :: specSplitFields d cs
      else
        match specSplitFields d cs with
        | t :: ts => (c :: t) :: ts
        | [] => [[c]] := rfl

/-- On input ending with the delimiter, the code's token loop produces
exactly the spec's fields of the input without that final delimiter: the
trailing empty field the spec would add is never produced. -/
theorem splitFields_append_delim (d : Char) :
    ∀ (cs : List Char) (buf : List Char),
      splitFields d buf (cs ++ [d]) = consHead buf.reverse (specSplitFields d cs) := by
  intro cs
  induction cs with
  | nil =>
    intro buf
    simp [splitFields, specSplitFields, consHead]
  | cons c cs ih =>
    intro buf
    rw [List.cons_append, splitFields_cons]
    by_cases hc : c = d
    · subst hc
      rw [if_pos rfl]
      have hne : (cs ++ [c]).isEmpty = false := by cases cs <;> rfl
      simp only [hne, Bool.false_eq_true, if_false, ih, List.reverse_nil]
      rw [consHead_nil (specSplitFields_ne_nil c cs)]
      rw [specSplitFields_cons, if_pos rfl]
      simp only [consHead, List.append_nil]
    · rw [if_neg hc, ih, specSplitFields_cons, if_neg hc]
      rcases List.exists_cons_of_ne_nil (specSplitFields_ne_nil d cs) with ⟨t, ts, hspec⟩
      rw [hspec]
      simp only [consHead, List.reverse_cons, List.append_assoc, List.singleton_append]

/-- On nonempty input not ending with the delimiter, the code's token
loop produces exactly the spec's fields: every empty field followed by a
delimiter is preserved. -/
theorem splitFields_no_trailing (d : Char) :
    ∀ (cs : List Char) (buf : List Char), cs ≠ [] → cs.getLast? ≠ some d →
      splitFields d buf cs = consHead buf.reverse (specSplitFields d cs) := by
  intro cs
  induction cs with
  | nil => intro buf h _; exact absurd rfl h
  | cons c cs ih =>
    intro buf _ hlast
    cases cs with
    | nil =>
      have hc : c ≠ d := by
        intro h
        exact hlast (by simp [h])
      simp [splitFields, specSplitFields, hc, consHead]
    | cons c2 cs2 =>
      have hlast2 : (c2 :: cs2).getLast? ≠ some d := by
        rw [List.getLast?_cons_cons] at hlast
        exact hlast
      rw [splitFields_cons]
      by_cases hc : c = d
      · subst hc
        rw [if_pos rfl]
        have hrec := ih [] (by simp) hlast2
        simp only [List.reverse_nil] at hrec
        rw [consHead_nil (specSplitFields_ne_nil c (c2 :: cs2))] at hrec
        have hne : (c2 :: cs2).isEmpty = false := rfl
        simp only [hne, Bool.false_eq_true, if_false, hrec]
        conv =>
          rhs
          rw [specSplitFields_cons, if_pos rfl]
        simp only [consHead, List.append_nil]
      · rw [if_neg hc, ih (c :: buf) (by simp) hlast2]
        rcases List.exists_cons_of_ne_nil (specSplitFields_ne_nil d (c2 :: cs2)) with
          ⟨t, ts, hspec⟩
        rw [hspec, specSplitFields_cons, if_neg hc, hspec]
        simp only [consHead, List.reverse_cons, List.append_assoc, List.singleton_append]

/-- Appending one character to a string appends it to the character
list. -/
theorem data_append_singleton (s : String) (d : Char) :
    (s ++ String.singleton d).data = s.data ++ [d] := by
  cases s
  rfl

/-- A line ending with the delimiter splits, under the code, into the
spec's fields of the line without that final delimiter: the trailing
empty field is dropped. -/
theorem splitString_append_delim (s : String) (d : Char) :
    splitString (s ++ String.singleton d) d = specSplit s d := by
  have hdata := data_append_singleton s d
  have hne : (s.data ++ [d]).isEmpty = false := by
    cases h : s.data ++ [d] with
    | nil => exact absurd h (by simp)
    | cons a as => rfl
  rw [splitString, hdata, hne]
  simp only [Bool.false_eq_true, if_false]
  rw [splitFields_append_delim, List.reverse_nil,
    consHead_nil (specSplitFields_ne_nil d s.data)]
  rfl

/-- A nonempty line not ending with the delimiter splits, under the code,
into exactly the spec's fields: all empty fields preserved. -/
theorem splitString_no_trailing (s : String) (d : Char)
    (h1 : s.data ≠ []) (h2 : s.data.getLast? ≠ some d) :
    splitString s d = specSplit s d := by
  have hne : s.data.isEmpty = false := by
    cases h : s.data with
    | nil => exact absurd h h1
    | cons a as => rfl
  rw [splitString, hne]
  simp only [Bool.false_eq_true, if_false]
  rw [splitFields_no_trailing d s.data [] h1 h2, List.reverse_nil,
    consHead_nil (specSplitFields_ne_nil d s.data)]
  rfl

/-- The three records of the spec's duplicate tie-break scenario, in
their insertion order: identifiers "B", "A", "B" with distinguishable
titles "B1", "A", "B2". -/
def courseB1 : Course :=
  { courseNumber := "B", courseTitle := "B1", prerequisites := [] }

/-- Second record of the duplicate scenario. -/
def courseA : Course :=
  { courseNumber := "A", courseTitle := "A", prerequisites := [] }

/-- Third record of the duplicate scenario, sharing its identifier with
`courseB1`. -/
def courseB2 : Course :=
  { courseNumber := "B", courseTitle := "B2", prerequisites := [] }

/-- The duplicate-identifier insertion sequence of the spec. -/
def dupCourses : List Course := [courseB1, courseA, courseB2]

/-- C1.  A record whose identifier equals an existing node's identifier
is routed into that node's right subtree, never replacing or merging the
node; concretely, after inserting identifiers ["B","A","B"] (titles
"B1","A","B2"), `searchBST "B"` returns the first-inserted record "B1"
(the root) and the in-order traversal is A, B1, B2. -/
theorem c1_duplicate_goes_right :
    (∀ (rc : Course) (l r : TreeNode) (c : Course),
      c.courseNumber = rc.courseNumber →
        insertIntoBST (TreeNode.node rc l r) c = TreeNode.node rc l (insertIntoBST r c)) ∧
    searchBST (insertList dupCourses) "B" = some courseB1 ∧
    traverseInOrder (insertList dupCourses) = [courseA, courseB1, courseB2] := by
  refine ⟨?_, by decide, by decide⟩
  intro rc l r c h
  have hb : strLt c.courseNumber rc.courseNumber = false := by
    rw [strLt_false_iff_le]
    exact le_of_eq h.symm
  simp [insertIntoBST, hb]

/-- Witness for C1: inserting a record with the same identifier "B" into
a single-node tree attaches it on the right. -/
theorem c1_duplicate_goes_right_witness :
    insertIntoBST (TreeNode.node courseB1 TreeNode.nil TreeNode.nil) courseB2 =
      TreeNode.node courseB1 TreeNode.nil (insertIntoBST TreeNode.nil courseB2) :=
  c1_duplicate_goes_right.1 courseB1 TreeNode.nil TreeNode.nil courseB2 rfl

/-- C2.  For every sequence of records inserted into an initially empty
tree, the in-order traversal yields their identifiers in non-decreasing
lexicographic order. -/
theorem c2_inorder_sorted (cs : List Course) :
    List.Sorted (fun a b => a ≤ b)
      ((traverseInOrder (insertList cs)).map Course.courseNumber) :=
  sorted_inorder_of_bst (insertList cs) (bst_insertList cs)

/-- C3.  Insertion preserves the BST invariant (left subtree strictly
below, right subtree greater than or equal), so every tree reachable by
insertions from the empty tree satisfies it. -/
theorem c3_bst_invariant :
    (∀ (t : TreeNode) (c : Course), BST t → BST (insertIntoBST t c)) ∧
    ∀ cs : List Course, BST (insertList cs) :=
  ⟨fun t c h => bst_insertIntoBST c t h, bst_insertList⟩

/-- Witness for C3: inserting into the empty tree yields a BST. -/
theorem c3_bst_invariant_witness : BST (insertIntoBST TreeNode.nil courseA) :=
  c3_bst_invariant.1 TreeNode.nil courseA trivial

/-- C4.  Every inserted record is reachable by `searchBST` on its own
identifier: the search succeeds and returns a record with that identifier
(the first match on the descent from the root, which under the duplicate
tie-break may be an earlier-inserted record with the same identifier). -/
theorem c4_search_roundtrip (cs : List Course) (c : Course) (hc : c ∈ cs) :
    (searchBST (insertList cs) c.courseNumber).map Course.courseNumber =
      some c.courseNumber := by
  refine searchBST_found (insertList cs) (bst_insertList cs) c ?_
  exact (perm_traverseInOrder_insertList cs).mem_iff.mpr hc

/-- Witness for C4: the shadowed duplicate "B2" is still found by key —
the search returns a record with identifier "B" (namely "B1"). -/
theorem c4_search_roundtrip_witness :
    (searchBST (insertList dupCourses) courseB2.courseNumber).map Course.courseNumber =
      some courseB2.courseNumber :=
  c4_search_roundtrip dupCourses courseB2 (by decide)

/-- C5.  A line splitting into fewer than 2 fields is skipped without
constructing a record, and the loader continues: loading
["CS101,Intro", "garbage", "CS200,Advanced,CS101"] yields exactly the
records CS101 and CS200. -/
theorem c5_malformed_line_skipped :
    (∀ (root : TreeNode) (line : String),
      (splitString line ',').length < 2 → loadLine root line = root) ∧
    traverseInOrder (loadCoursesFromFile ["CS101,Intro", "garbage", "CS200,Advanced,CS101"]) =
      [{ courseNumber := "CS101", courseTitle := "Intro", prerequisites := [] },
        { courseNumber := "CS200", courseTitle := "Advanced", prerequisites := ["CS101"] }] := by
  refine ⟨?_, by decide⟩
  intro root line h
  simp only [loadLine, parseLine]
  cases hs : splitString line ',' with
  | nil => rfl
  | cons t0 rest0 =>
    cases rest0 with
    | nil => rfl
    | cons t1 rest1 =>
      rw [hs] at h
      simp only [List.length_cons] at h
      exfalso
      omega

/-- Witness for C5: the malformed line "garbage" leaves the tree
unchanged. -/
theorem c5_malformed_line_skipped_witness :
    loadLine TreeNode.nil "garbage" = TreeNode.nil :=
  c5_malformed_line_skipped.1 TreeNode.nil "garbage" (by decide)

/-- Counterexample to C6 as stated: the line "A," (exactly one comma, in
final position) does not split into the 2 fields ["A", ""] — the trailing
empty field is dropped by the `std::getline` loop, the line has a single
field and is rejected by the parser. -/
theorem c6_trailing_field_cex :
    splitString "A," ',' = ["A"] ∧
    ¬ splitString "A," ',' = ["A", ""] ∧
    parseLine "A," = none := by
  decide

/-- C6 (amended).  The splitter preserves every empty field that is
followed by a further character (leading and interior empty fields), but
drops a trailing empty field: an empty line yields no fields; a line
ending with the delimiter yields exactly the spec's fields of the line
without that final delimiter; a nonempty line not ending with the
delimiter yields exactly the spec's all-fields-preserved splitting, so
such a line with exactly one comma has 2 fields and is accepted. -/
theorem c6_split_amended :
    (∀ d : Char, splitString "" d = []) ∧
    (∀ (s : String) (d : Char),
      splitString (s ++ String.singleton d) d = specSplit s d) ∧
    (∀ (s : String) (d : Char), s.data ≠ [] → s.data.getLast? ≠ some d →
      splitString s d = specSplit s d) :=
  ⟨fun _ => rfl, splitString_append_delim, splitString_no_trailing⟩

/-- Witness for C6 (amended): "A,B" does not end with the delimiter, so
the code splits it exactly as the spec's splitter does. -/
theorem c6_split_amended_witness :
    splitString "A,B" ',' = specSplit "A,B" ',' :=
  c6_split_amended.2.2 "A,B" ',' (by decide) (by decide)

/-- Counterexample to C7 as stated: after loading a readable source with
zero lines the application does NOT treat the data as loaded — the load
returns the null root, `mainMenu` prints "Failed to load course data" and
the `dataLoaded` flag stays false.  An empty completed load is
indistinguishable from a load failure. -/
theorem c7_empty_load_flag_cex :
    loadCoursesFromFile ([] : List String) = TreeNode.nil ∧
    dataLoadedAfter false (loadCoursesFromFile ([] : List String)) = false := by
  decide

/-- C7 (amended).  Loading zero lines yields the empty tree, whose
traversal is empty and in which every search returns not-found; however
the surrounding application cannot distinguish this from a failed load:
the null root leaves the `dataLoaded` flag false. -/
theorem c7_empty_source :
    loadCoursesFromFile ([] : List String) = TreeNode.nil ∧
    traverseInOrder (loadCoursesFromFile ([] : List String)) = [] ∧
    (∀ k : String, searchBST (loadCoursesFromFile ([] : List String)) k = none) ∧
    dataLoadedAfter false (loadCoursesFromFile ([] : List String)) = false :=
  ⟨rfl, rfl, fun _ => rfl, rfl⟩

/-- C8.  A parsed line's fields at indices 2..n-1 become the record's
prerequisite sequence in file order, with no existence check against the
catalog; a line with exactly 2 fields yields no prerequisites; the line
"CS200,Advanced,CS101,CS102" yields exactly ["CS101", "CS102"]. -/
theorem c8_prereq_passthrough :
    (∀ (line : String) (c : Course), parseLine line = some c →
      c.prerequisites = (splitString line ',').drop 2) ∧
    parseLine "CS200,Advanced,CS101,CS102" =
      some { courseNumber := "CS200", courseTitle := "Advanced",
              prerequisites := ["CS101", "CS102"] } ∧
    (∀ (line : String) (c : Course), parseLine line = some c →
      (splitString line ',').length = 2 → c.prerequisites = []) := by
  have hmain : ∀ (line : String) (c : Course), parseLine line = some c →
      c.prerequisites = (splitString line ',').drop 2 := by
    intro line c h
    simp only [parseLine] at h
    cases hs : splitString line ',' with
    | nil =>
      rw [hs] at h
      exact absurd h (by simp)
    | cons t0 rest0 =>
      cases rest0 with
      | nil =>
        rw [hs] at h
        exact absurd h (by simp)
      | cons t1 rest1 =>
        rw [hs] at h
        have hc : ({ courseNumber := t0, courseTitle := t1,
                     prerequisites := rest1 } : Course) = c := by
          injection h
        subst hc
        simp
  refine ⟨hmain, by decide, ?_⟩
  intro line c h hlen
  rw [hmain line c h]
  cases hs : splitString line ',' with
  | nil => rfl
  | cons t0 rest0 =>
    cases rest0 with
    | nil => rfl
    | cons t1 rest1 =>
      rw [hs] at hlen
      simp only [List.length_cons] at hlen
      have : rest1 = [] := List.length_eq_zero.mp (by omega)
      simp [this]

/-- Witness for C8: the prerequisites of the record parsed from
"CS200,Advanced,CS101,CS102" are exactly the fields after the title. -/
theorem c8_prereq_passthrough_witness :
    ({ courseNumber := "CS200", courseTitle := "Advanced",
        prerequisites := ["CS101", "CS102"] : Course }).prerequisites =
      (splitString "CS200,Advanced,CS101,CS102" ',').drop 2 :=
  c8_prereq_passthrough.1 "CS200,Advanced,CS101,CS102" _ (by decide)

/-- C9.  `searchBST` is a pure function of the tree — the embedding
returns only an optional view and the tree value is untouched by
construction.  Searching an identifier held by no record falls off a
missing child and returns the explicit not-found result `none` (never a
thrown failure), and any record it does return is a record of the tree
carrying the searched identifier. -/
theorem c9_search_view_notfound (t : TreeNode) (k : String) :
    ((∀ c ∈ traverseInOrder t, c.courseNumber ≠ k) → searchBST t k = none) ∧
    (∀ c : Course, searchBST t k = some c →
      c ∈ traverseInOrder t ∧ c.courseNumber = k) :=
  ⟨searchBST_eq_none_of_not_mem t k, fun c h => searchBST_some_mem t k c h⟩

/-- Witness for C9: searching the absent identifier "C" in the
duplicate-scenario tree returns not-found. -/
theorem c9_search_view_notfound_witness :
    searchBST (insertList dupCourses) "C" = none :=
  (c9_search_view_notfound (insertList dupCourses) "C").1 (by decide)

/-- C10.  Every insertion adds exactly one node holding the inserted
record and neither removes, replaces nor modifies any existing record:
the traversal after insertion is a permutation of the inserted record
consed onto the old traversal; hence after any sequence of insertions
into an empty tree the traversal is a permutation of the inserted
records and has their exact count. -/
theorem c10_insert_adds_exactly_one :
    (∀ (t : TreeNode) (c : Course),
      List.Perm (traverseInOrder (insertIntoBST t c)) (c :: traverseInOrder t)) ∧
    (∀ cs : List Course,
      List.Perm (traverseInOrder (insertList cs)) cs ∧
      (traverseInOrder (insertList cs)).length = cs.length) :=
  ⟨perm_traverseInOrder_insert, fun cs =>
    ⟨perm_traverseInOrder_insertList cs,
      (perm_traverseInOrder_insertList cs).length_eq⟩⟩
